import Mathlib

/-!
Verification of the vulnerablecode advisory-normalization core against its
natural-language specification.

The development shallowly embeds the code of
`vulnerabilities/importers/gitlab.py` and
`vulnerabilities/importers/postgresql.py`.  Helpers that those modules import
from elsewhere in the repository (`vulnerabilities/helpers.py`,
`vulnerabilities/importer.py`) are not part of the provided sources; where a
claim depends on them they are modelled from the specification and marked as
such in their doc comments.

Versions are abstracted by a type `V`; per-ecosystem version ordering is a
`LinearOrder` on `V` (the spec states versions of one ecosystem form a strict
total order).  A version range is embedded by its single observable operation,
`contains : V -> Bool`.
-/

namespace VulnCode

/-- Embedding of a `univers` version range: the spec treats a range as opaque
with one operation `contains(version) -> bool`, so a range is a containment
predicate on versions. -/
abbrev VersionRange (V : Type) : Type := V → Bool

/-- Embedding of `packageurl.PackageURL`: ecosystem type, optional namespace,
name, optional version, qualifiers, optional subpath.  The external library's
input validation is not modelled; a purl is a plain record. -/
structure PackageURL (V : Type) where
  ptype : String
  nspace : Option String := none
  name : String
  version : Option V := none
  qualifiers : List (String × String) := []
  subpath : Option String := none
deriving DecidableEq, Repr

/-- Embedding of `vulnerabilities.importer.Reference` as used by the claims:
only the url matters here.  `Reference.from_url` wraps a url. -/
structure Reference where
  url : String
deriving DecidableEq, Repr

/-- Embedding of `Reference.from_url`. -/
def Reference.from_url (u : String) : Reference := ⟨u⟩

/-- Embedding of `vulnerabilities.importer.AffectedPackage`: a package plus an
optional affected version range and an optional fixed version. -/
structure AffectedPackage (V : Type) where
  package : PackageURL V
  affected_version_range : Option (VersionRange V) := none
  fixed_version : Option V := none

/-- Embedding of `vulnerabilities.importer.AdvisoryData`.  The publication
date is kept as an opaque string. -/
structure AdvisoryData (V : Type) where
  aliases : List String := []
  summary : String := ""
  references : List Reference := []
  date_published : Option String := none
  affected_packages : List (AffectedPackage V) := []

/-- Embedding of `vulnerabilities.improver.Inference` as constructed by
`Inference.from_advisory_data`: advisory aliases, summary and references are
copied from the advisory; confidence, affected purls and the fixed purl are
supplied by the caller. -/
structure Inference (V : Type) where
  aliases : List String
  summary : String
  confidence : Nat
  affected_purls : List (PackageURL V)
  fixed_purl : Option (PackageURL V)
  references : List Reference
deriving DecidableEq, Repr

/-- Modelled from the spec: core of the nearest-patched matcher of
`vulnerabilities/helpers.py` (not under the provided sources), section 4.3 of
the spec: among the `resolved` entries strictly greater than `v` (under the
strict comparison `lt`), return the least one; `none` when no entry exceeds
`v`.  The source sorts `resolved` and binary-searches; computing the minimum
of the strictly-greater entries is the same function, expressed without the
intermediate sort.  `minGreaterStep` folds one resolved entry into the current
candidate. -/
def minGreaterStep {α : Type} (lt : α → α → Bool) (r v : α) :
    Option α → Option α
  | none => bif lt v r then some r else none
  | some m => bif lt v r && lt r m then some r else some m

/-- Recursion over the resolved entries computing the least entry strictly
greater than `v`, one `minGreaterStep` per entry. -/
def minGreaterBy {α : Type} (lt : α → α → Bool) (resolved : List α) (v : α) :
    Option α :=
  match resolved with
  | [] => none
  | r :: rest => minGreaterStep lt r v (minGreaterBy lt rest v)

/-- Modelled from the spec: `nearest_patched_package` of
`vulnerabilities/helpers.py` (not under the provided sources), section 4.3 of
the spec: pair each vulnerable entry with the smallest resolved entry strictly
greater than it, or `none` when no resolved entry exceeds it.  In an output
pair, `.1` is the `vulnerable_package` field and `.2` the `patched_package`
field of the legacy `AffectedPackage` records the source returns. -/
def nearest_patched_package {α : Type} (lt : α → α → Bool)
    (vulnerable_packages resolved_packages : List α) : List (α × Option α) :=
  vulnerable_packages.map (fun v => (v, minGreaterBy lt resolved_packages v))

/-- Comparison of two purls by their version, as the matcher is applied by the
gitlab improver where every purl carries a concrete version.  Purls without a
version compare as less than purls with one. -/
def purlVersionLt {V : Type} [LinearOrder V] (a b : PackageURL V) : Bool :=
  match a.version, b.version with
  | some x, some y => decide (x < y)
  | none, some _ => true
  | _, none => false

/-- Modelled from the spec: `resolve_version_range` of
`vulnerabilities/helpers.py` (not under the provided sources), section 4.2 of
the spec: partition the known package versions into those contained in the
range (affected) and the rest (unaffected).  The gitlab improver calls it with
an empty `ignorable_versions` list, which is therefore not modelled. -/
def resolve_version_range {V : Type} (affected_version_range : VersionRange V)
    (package_versions : List V) : List V × List V :=
  (package_versions.filter affected_version_range,
    package_versions.filter (fun v => !affected_version_range v))

/-- Identity of a purl: its `(type, namespace, name)` triple, the version
being stripped. -/
def identityOf {V : Type} (p : PackageURL V) : String × Option String × String :=
  (p.ptype, p.nspace, p.name)

/-- Modelled from the spec: `AffectedPackage.merge` of
`vulnerabilities/importer.py` (not under the provided sources), section 4.4 of
the spec: group by the version-stripped identity; fail with
`UnMergeablePackageError` (embedded as `Except.error`) when more than one
distinct `(type, namespace, name)` identity appears; otherwise return the
identity purl together with the ranges and the fixed versions collected from
the records. -/
def AffectedPackage.merge {V : Type} (affected_packages : List (AffectedPackage V)) :
    Except Unit (PackageURL V × List (VersionRange V) × List V) :=
  match affected_packages with
  | [] => Except.error ()
  | a :: rest =>
    if rest.all (fun b => decide (identityOf b.package = identityOf a.package)) then
      Except.ok
        ({ ptype := a.package.ptype, nspace := a.package.nspace,
           name := a.package.name },
          (affected_packages.filterMap (fun p => p.affected_version_range),
            affected_packages.filterMap (fun p => p.fixed_version)))
    else
      Except.error ()

/-- Embedding of one step of the grouping loop of
`GitLabBasicImprover.get_inferences` (gitlab.py lines 330 to 336): a Python
dict is an insertion-ordered association list with unique keys; appending a
value under a key extends the key's list, or adds the key at the end when it
is new. -/
def insertGrouped {α κ : Type} [DecidableEq κ] (key : κ) (val : α) :
    List (κ × List α) → List (κ × List α)
  | [] => [(key, [val])]
  | (k, vs) :: rest =>
    if k = key then (k, vs ++ [val]) :: rest
    else (k, vs) :: insertGrouped key val rest

/-- Embedding of the grouping loop of `GitLabBasicImprover.get_inferences`
(gitlab.py lines 330 to 336): fold the matcher's output pairs
`(vulnerable_package, patched_package)` into the dict
`unique_patched_packages_with_affected_packages`, keyed by the patched
package. -/
def groupByPatched {α κ : Type} [DecidableEq κ] (pairs : List (α × κ)) :
    List (κ × List α) :=
  pairs.foldl (fun groups p => insertGrouped p.2 p.1 groups) []

/-- Embedding of the final yield loop of `GitLabBasicImprover.get_inferences`
(gitlab.py lines 338 to 347): one `Inference` per entry of the grouping dict,
with confidence 100, the group's vulnerable purls as `affected_purls` and the
group's key as `fixed_purl`. -/
def inferencesFromPairs {V : Type} [DecidableEq V] (advisory_data : AdvisoryData V)
    (pairs : List (PackageURL V × Option (PackageURL V))) : List (Inference V) :=
  (groupByPatched pairs).map (fun g =>
    { aliases := advisory_data.aliases
      summary := advisory_data.summary
      confidence := 100
      affected_purls := g.2
      fixed_purl := g.1
      references := advisory_data.references })

/-- Embedding of `vulnerabilities.package_managers.GoproxyVersionAPI` as far
as `get_inferences` observes it: its `module_name_by_package_name` mapping,
empty on a freshly constructed fetcher. -/
structure GoproxyFetcher where
  module_name_by_package_name : List (String × String) := []
deriving DecidableEq, Repr

/-- Mutable state of a `GitLabBasicImprover`: its `versions_fetcher_by_purl`
dict, restricted to the Goproxy fetchers that `get_inferences` itself reads
and writes. -/
abbrev ImproverState (V : Type) : Type := List (PackageURL V × GoproxyFetcher)

/-- Lookup in the `versions_fetcher_by_purl` dict. -/
def lookupFetcher {V : Type} [DecidableEq V] :
    ImproverState V → PackageURL V → Option GoproxyFetcher
  | [], _ => none
  | (k, f) :: rest, p => if k = p then some f else lookupFetcher rest p

/-- Lookup in a fetcher's `module_name_by_package_name` dict. -/
def moduleNameLookup : List (String × String) → String → Option String
  | [], _ => none
  | (k, v) :: rest, n => if k = n then some v else moduleNameLookup rest n

/-- Embedding of `GitLabBasicImprover.get_inferences` (gitlab.py lines 281 to
347).  The external version-universe service (`get_package_versions`, whose
own body only calls external version APIs) is a function argument taking the
purl and the advisory's publication date; the improver's mutable
`versions_fetcher_by_purl` dict is threaded explicitly and the updated dict is
returned beside the yielded inferences.  Exceptions raised by
`AffectedPackage.merge` are caught and turn into an empty yield.
`golangNameState` embeds the golang special case (gitlab.py lines 298 to
305): the package name is looked up in the Goproxy fetcher's module-name
dict, a fresh fetcher with an empty dict being installed into
`versions_fetcher_by_purl` when none is cached yet. -/
def golangNameState {V : Type} [DecidableEq V]
    (st : ImproverState V) (purl : PackageURL V) : String × ImproverState V :=
  if purl.ptype = "golang" then
    match lookupFetcher st purl with
    | some f =>
      ((moduleNameLookup f.module_name_by_package_name purl.name).getD purl.name, st)
    | none =>
      ((moduleNameLookup ({} : GoproxyFetcher).module_name_by_package_name
          purl.name).getD purl.name,
        st ++ [(purl, ({} : GoproxyFetcher))])
  else (purl.name, st)

/-- Embedding of the per-range body of `GitLabBasicImprover.get_inferences`
(gitlab.py lines 310 to 347): resolve each merged range against the version
universe, build concrete purls for the affected and unaffected versions, run
the nearest-patched matcher, and emit the grouped inferences. -/
def inferencesForPackage {V : Type} [LinearOrder V] [DecidableEq V]
    (get_package_versions : PackageURL V → Option String → List V)
    (advisory_data : AdvisoryData V) (purl : PackageURL V) (pkg_name : String)
    (affected_version_ranges : List (VersionRange V)) : List (Inference V) :=
  let pkg_type := purl.ptype
  let pkg_nspace := purl.nspace
  let valid_versions := get_package_versions purl advisory_data.date_published
  affected_version_ranges.flatMap (fun affected_version_range =>
    let aff_unaff := resolve_version_range affected_version_range valid_versions
    let affected_purls := aff_unaff.1.map (fun version =>
      { ptype := pkg_type, nspace := pkg_nspace, name := pkg_name,
        version := some version : PackageURL V })
    let unaffected_purls := aff_unaff.2.map (fun version =>
      { ptype := pkg_type, nspace := pkg_nspace, name := pkg_name,
        version := some version : PackageURL V })
    inferencesFromPairs advisory_data
      (nearest_patched_package purlVersionLt affected_purls unaffected_purls))

/-- Embedding of `GitLabBasicImprover.get_inferences` (gitlab.py lines 281 to
347), assembled from the stages above. -/
def getInferencesState {V : Type} [LinearOrder V] [DecidableEq V]
    (get_package_versions : PackageURL V → Option String → List V)
    (st : ImproverState V) (advisory_data : AdvisoryData V) :
    List (Inference V) × ImproverState V :=
  if advisory_data.affected_packages.isEmpty then ([], st)
  else
    match AffectedPackage.merge advisory_data.affected_packages with
    | Except.error _ => ([], st)
    | Except.ok (purl, affected_version_ranges, _) =>
      let name_st := golangNameState st purl
      (inferencesForPackage get_package_versions advisory_data purl name_st.1
        affected_version_ranges,
        name_st.2)

/-- Embedding of the dict `PURL_TYPE_BY_GITLAB_SCHEME` of gitlab.py; `none`
embeds a `KeyError` on lookup. -/
def purlTypeByGitlabScheme : String → Option String
  | "gem" => some "gem"
  | "go" => some "golang"
  | "maven" => some "maven"
  | "npm" => some "npm"
  | "nuget" => some "nuget"
  | "pypi" => some "pypi"
  | "packagist" => some "composer"
  | _ => none

/-- Embedding of the dict `GITLAB_SCHEME_BY_PURL_TYPE` of gitlab.py, the
inverse of `PURL_TYPE_BY_GITLAB_SCHEME`. -/
def gitlabSchemeByPurlType : String → Option String
  | "gem" => some "gem"
  | "golang" => some "go"
  | "maven" => some "maven"
  | "npm" => some "npm"
  | "nuget" => some "nuget"
  | "pypi" => some "pypi"
  | "composer" => some "packagist"
  | _ => none

/-- Splitting a character list at every occurrence of a separator character:
the Python expression `s.split(sep)` for a one-character separator, as used
with `/` in gitlab.py and `,` in postgresql.py.  Lean's own `String.splitOn`
does not reduce inside the kernel, so Python strings are handled as their
character lists throughout. -/
def pySplitChar (sep : Char) : List Char → List (List Char)
  | [] => [[]]
  | c :: rest =>
    match pySplitChar sep rest with
    | [] => [[c]]
    | h :: t => if c == sep then [] :: h :: t else (c :: h) :: t

/-- Joining character lists with a separator character: the Python expression
`sep.join(parts)`. -/
def joinChar (sep : Char) : List (List Char) → List Char
  | [] => []
  | [p] => p
  | p :: q :: rest => p ++ sep :: joinChar sep (q :: rest)

/-- The ASCII whitespace characters Python's `strip()` removes (the further
Unicode whitespace is irrelevant to the scraped inputs). -/
def isSpaceChar (c : Char) : Bool :=
  c == ' ' || c == '\t' || c == '\n' || c == '\r'

/-- The Python expression `s.strip()`: whitespace removed from both ends. -/
def pyStrip (s : List Char) : List Char :=
  ((s.dropWhile isSpaceChar).reverse.dropWhile isSpaceChar).reverse

/-- Character-list prefix test, used to embed Python's substring
containment. -/
def charsStartWith : List Char → List Char → Bool
  | [], _ => true
  | _ :: _, [] => false
  | a :: as, b :: bs => a == b && charsStartWith as bs

/-- Character-list substring test: embedding of the Python expression
`pat in s`. -/
def charsContain (pat : List Char) : List Char → Bool
  | [] => charsStartWith pat []
  | b :: bs => charsStartWith pat (b :: bs) || charsContain pat bs

/-- Embedding of `not_empty` of gitlab.py; the segments produced by
splitting a string are never Python `None`, so only the emptiness test
remains. -/
def not_empty (value : List Char) : Bool := !value.isEmpty

/-- Embedding of `get_purl` of gitlab.py (lines 114 to 138).  The function can
raise: `parts[0]` on a slug with no non-empty segment (`IndexError`) and the
scheme-dict lookup on an unknown first segment (`KeyError`); both are embedded
as `Except.error`.  `Except.ok none` is the explicit `return None` fallthrough
for a known scheme with a single segment, and `Except.ok (some purl)` a
successfully built purl.  The external packageurl constructor is modelled as
plain record creation. -/
def get_purl {V : Type} (package_slug : String) : Except String (Option (PackageURL V)) :=
  let parts := (pySplitChar '/' package_slug.toList).filter not_empty
  match parts with
  | [] => Except.error "IndexError"
  | gitlab_scheme :: rest =>
    match purlTypeByGitlabScheme (String.mk gitlab_scheme) with
    | none => Except.error "KeyError"
    | some purl_type =>
      if String.mk gitlab_scheme = "go" then
        Except.ok (some { ptype := purl_type, nspace := none,
                          name := String.mk (joinChar '/' rest) })
      else
        match rest with
        | [] => Except.ok none
        | [n] => Except.ok (some { ptype := purl_type, name := String.mk n })
        | n1 :: n2 :: more =>
          Except.ok (some { ptype := purl_type,
                            nspace := some (String.mk (joinChar '/'
                              ((n1 :: n2 :: more).dropLast))),
                            name := String.mk ((n1 :: n2 :: more).getLast
                              (List.cons_ne_nil n1 (n2 :: more))) })

/-- The schemes gitlab.py parses with `from_gitlab_native` (its
`gitlab_native_schemes` list). -/
def gitlabNativeSchemes : List String := ["pypi", "gem", "npm", "go", "packagist"]

/-- One gitlab advisory YAML file after `yaml.safe_load`, restricted to the
keys parse_yaml_file reads.  `affected_range := none` stands for an absent or
empty (falsy) `affected_range` value. -/
structure GitlabAdvisory where
  identifiers : List String := []
  title : String := ""
  description : String := ""
  pubdate : String := ""
  affected_range : Option String := none
  fixed_versions : List String := []
  urls : List String := []
  package_slug : String := ""

/-- Embedding of the `affected_packages` construction of `parse_yaml_file`
(gitlab.py lines 230 to 243): when some fixed versions parsed,
`extract_affected_packages` yields one record per fixed version, each carrying
BOTH that fixed version and the (possibly absent) affected range; otherwise a
single range-only record, or no record at all when the range is also
absent. -/
def build_affected_packages {V : Type} (purl : PackageURL V)
    (affected_version_range : Option (VersionRange V))
    (parsed_fixed_versions : List V) : List (AffectedPackage V) :=
  if !parsed_fixed_versions.isEmpty then
    parsed_fixed_versions.map (fun fixed_version =>
      { package := purl, fixed_version := some fixed_version,
        affected_version_range := affected_version_range })
  else if affected_version_range.isNone then ([] : List (AffectedPackage V))
  else [{ package := purl, affected_version_range := affected_version_range }]

/-- Embedding of `parse_yaml_file` of gitlab.py (lines 157 to 250) on an
already-loaded advisory dict of the expected shape.  The external univers
parsers are function arguments: `from_gitlab_native` (keyed by the gitlab
scheme), the range class `from_native` parser and the version class
constructor `version_of`; each returns `Except.error` where the library would
raise.  The try block around range parsing is embedded by `Except.toOption`:
a parser error is logged and leaves `affected_version_range` at `None`.  The
per-version try block around fixed-version parsing likewise drops unparsable
versions.  `get_purl` and the `GITLAB_SCHEME_BY_PURL_TYPE` lookup are called
outside any try block, so their errors propagate as `Except.error`;
`Except.ok` wraps the returned `AdvisoryData` (`none` for the plain `return`
taken on a non-dict YAML document, which cannot occur for the record input
modelled here but is kept for the purl-less early return shape). -/
def parse_yaml_file {V : Type}
    (from_gitlab_native : String → String → Except String (VersionRange V))
    (from_native : String → Except String (VersionRange V))
    (version_of : String → Except String V)
    (adv : GitlabAdvisory) : Except String (Option (AdvisoryData V)) :=
  let aliases := adv.identifiers
  let summary := adv.title ++ ". " ++ adv.description
  let references := adv.urls.map Reference.from_url
  let date_published := some adv.pubdate
  match get_purl (V := V) adv.package_slug with
  | Except.error e => Except.error e
  | Except.ok none =>
    Except.ok (some { aliases := aliases, summary := summary,
                      references := references, date_published := date_published })
  | Except.ok (some purl) =>
    match gitlabSchemeByPurlType purl.ptype with
    | none => Except.error "KeyError"
    | some gitlab_scheme =>
      let affected_version_range : Option (VersionRange V) :=
        match adv.affected_range with
        | none => none
        | some ar =>
          if gitlab_scheme ∈ gitlabNativeSchemes then
            (from_gitlab_native gitlab_scheme ar).toOption
          else (from_native ar).toOption
      let parsed_fixed_versions := adv.fixed_versions.filterMap
        (fun fixed_version => (version_of fixed_version).toOption)
      let affected_packages :=
        build_affected_packages purl affected_version_range parsed_fixed_versions
      Except.ok (some { aliases := aliases, summary := summary,
                        references := references,
                        date_published := date_published,
                        affected_packages := affected_packages })

/-- One row of the PostgreSQL security table, as `to_advisories` of
postgresql.py reads its five td columns after the external HTML parse:
the text of the first nobr element of the reference column when present, the
hrefs of the reference column's anchors, the text of the affected, fixed and
description columns.  Severity extraction from the score column is orthogonal
to the claims and not modelled. -/
structure PGRow where
  ref_nobr : Option String := none
  ref_links : List String := []
  affected_text : String := ""
  fixed_text : String := ""
  desc_text : String := ""

/-- Embedding of `vulnerabilities.importer.Advisory` as built by
postgresql.py: vulnerability id, summary, references and the nearest-patched
pairs. -/
structure PGAdvisory where
  vulnerability_id : String
  summary : String
  references : List Reference
  affected_packages : List (PackageURL String × Option (PackageURL String))
deriving DecidableEq, Repr

/-- Embedding of `urlparse.urljoin(BASE_URL, link)` for the links postgresql.py
absolutizes, which all start with a slash. -/
def pgAbsolutize (link : String) : String :=
  if charsStartWith "/".toList link.toList then
    "https://www.postgresql.org" ++ link
  else link

/-- Qualifiers of the purls of one row: the os qualifier when the summary
mentions windows (the Python test `"windows" in summary.lower()`). -/
def pgQualifiers (summary : String) : List (String × String) :=
  if charsContain "windows".toList (summary.toList.map Char.toLower) then
    [("os", "windows")]
  else []

/-- The advisory postgresql.py appends for one row, given the `cve_id` local
in scope at that iteration.  Versions are the comma-separated column entries,
stripped; fixed entries that are empty before stripping are filtered out,
affected entries are not.  The version comparison used by the external
nearest-patched helper is a parameter `lt`. -/
def pg_advisory (lt : PackageURL String → PackageURL String → Bool)
    (cve_id : String) (row : PGRow) : PGAdvisory :=
  let summary := row.desc_text
  let pkg_qualifiers := pgQualifiers summary
  let affected_packages := (pySplitChar ',' row.affected_text.toList).map
    (fun version =>
      ({ ptype := "generic", name := "postgresql",
         version := some (String.mk (pyStrip version)),
         qualifiers := pkg_qualifiers } : PackageURL String))
  let fixed_packages := ((pySplitChar ',' row.fixed_text.toList).filter not_empty).map
    (fun version =>
      ({ ptype := "generic", name := "postgresql",
         version := some (String.mk (pyStrip version)),
         qualifiers := pkg_qualifiers } : PackageURL String))
  { vulnerability_id := cve_id
    summary := summary
    references := row.ref_links.map (fun link => Reference.from_url (pgAbsolutize link))
    affected_packages := nearest_patched_package lt affected_packages fixed_packages }

/-- Loop of `to_advisories` of postgresql.py (lines 58 to 125).  The Python
local `cve_id` persists across iterations: a row whose reference column has a
nobr element rebinds it, the `except IndexError: pass` on a row without one
keeps the previous value, and building the advisory while `cve_id` was never
bound raises `NameError` (an unbound local), embedded as `Except.error`. -/
def toAdvisoriesGo (lt : PackageURL String → PackageURL String → Bool) :
    List PGRow → Option String → List PGAdvisory → Except String (List PGAdvisory)
  | [], _, acc => Except.ok acc.reverse
  | row :: rest, cve, acc =>
    let cve_id := match row.ref_nobr with
      | some c => some c
      | none => cve
    match cve_id with
    | none => Except.error "NameError"
    | some c => toAdvisoriesGo lt rest (some c) (pg_advisory lt c row :: acc)

/-- Embedding of `to_advisories` of postgresql.py on the extracted table
rows. -/
def to_advisories (lt : PackageURL String → PackageURL String → Bool)
    (rows : List PGRow) : Except String (List PGAdvisory) :=
  toAdvisoriesGo lt rows none []

/-- Strict version comparison induced by the ecosystem's total order on
versions, used to instantiate the matcher in the statements below. -/
def linLt {α : Type} [LinearOrder α] (a b : α) : Bool := decide (a < b)

theorem minGreaterBy_some_mem {α : Type} [LinearOrder α] (R : List α) (v m : α)
    (h : minGreaterBy linLt R v = some m) : m ∈ R ∧ v < m := by
  induction R generalizing m with
  | nil => simp [minGreaterBy] at h
  | cons r rest ih =>
    simp only [minGreaterBy] at h
    cases hrec : minGreaterBy linLt rest v with
    | none =>
      rw [hrec] at h
      simp only [minGreaterStep] at h
      cases hvr : linLt v r with
      | true =>
        rw [hvr, cond_true] at h
        obtain rfl : r = m := Option.some.inj h
        exact ⟨List.mem_cons_self _ _, by simpa [linLt] using hvr⟩
      | false =>
        rw [hvr, cond_false] at h
        cases h
    | some m2 =>
      rw [hrec] at h
      simp only [minGreaterStep] at h
      rcases ih m2 hrec with ⟨hmem, hvm2⟩
      cases hb : (linLt v r && linLt r m2) with
      | true =>
        rw [hb, cond_true] at h
        obtain rfl : r = m := Option.some.inj h
        have hb1 := (Bool.and_eq_true _ _).mp hb
        exact ⟨List.mem_cons_self _ _, by simpa [linLt] using hb1.1⟩
      | false =>
        rw [hb, cond_false] at h
        obtain rfl : m2 = m := Option.some.inj h
        exact ⟨List.mem_cons_of_mem r hmem, hvm2⟩

theorem minGreaterBy_none_iff {α : Type} [LinearOrder α] (R : List α) (v : α) :
    minGreaterBy linLt R v = none ↔ ∀ r ∈ R, ¬ v < r := by
  induction R with
  | nil => simp [minGreaterBy]
  | cons r rest ih =>
    simp only [minGreaterBy]
    cases hrec : minGreaterBy linLt rest v with
    | none =>
      simp only [minGreaterStep]
      have hrest : ∀ x ∈ rest, ¬ v < x := ih.mp hrec
      cases hvr : linLt v r with
      | true =>
        rw [cond_true]
        constructor
        · intro h; cases h
        · intro h
          exact absurd (by simpa [linLt] using hvr) (h r (List.mem_cons_self r rest))
      | false =>
        rw [cond_false]
        constructor
        · intro _ x hx
          rcases List.mem_cons.mp hx with hx | hx
          · subst hx; simpa [linLt] using hvr
          · exact hrest x hx
        · intro _; rfl
    | some m =>
      simp only [minGreaterStep]
      rcases minGreaterBy_some_mem rest v m hrec with ⟨hmem, hvm⟩
      constructor
      · intro h
        cases hb : (linLt v r && linLt r m) with
        | true => rw [hb, cond_true] at h; cases h
        | false => rw [hb, cond_false] at h; cases h
      · intro h
        exact absurd hvm (h m (List.mem_cons_of_mem r hmem))

theorem minGreaterBy_minimal {α : Type} [LinearOrder α] (R : List α) (v m : α)
    (h : minGreaterBy linLt R v = some m) : ∀ r ∈ R, v < r → m ≤ r := by
  induction R generalizing m with
  | nil => simp [minGreaterBy] at h
  | cons r rest ih =>
    intro x hx hvx
    simp only [minGreaterBy] at h
    cases hrec : minGreaterBy linLt rest v with
    | none =>
      have hrest : ∀ y ∈ rest, ¬ v < y := (minGreaterBy_none_iff rest v).mp hrec
      rw [hrec] at h
      simp only [minGreaterStep] at h
      cases hvr : linLt v r with
      | true =>
        rw [hvr, cond_true] at h
        obtain rfl : r = m := Option.some.inj h
        rcases List.mem_cons.mp hx with hx | hx
        · exact le_of_eq hx.symm
        · exact absurd hvx (hrest x hx)
      | false =>
        rw [hvr, cond_false] at h
        cases h
    | some m2 =>
      rw [hrec] at h
      simp only [minGreaterStep] at h
      cases hb : (linLt v r && linLt r m2) with
      | true =>
        rw [hb, cond_true] at h
        obtain rfl : r = m := Option.some.inj h
        have hb1 := (Bool.and_eq_true _ _).mp hb
        rcases List.mem_cons.mp hx with hx | hx
        · exact le_of_eq hx.symm
        · exact le_trans (le_of_lt (by simpa [linLt] using hb1.2)) (ih m2 hrec x hx hvx)
      | false =>
        rw [hb, cond_false] at h
        obtain rfl : m2 = m := Option.some.inj h
        rcases List.mem_cons.mp hx with hx | hx
        · subst hx
          have hb2 : ¬ (linLt v x = true ∧ linLt x m2 = true) := by
            intro hboth
            rw [hboth.1, hboth.2] at hb
            cases hb
          have hnlt : ¬ x < m2 := fun hlt =>
            hb2 ⟨by simpa [linLt] using hvx, by simpa [linLt] using hlt⟩
          exact not_lt.mp hnlt
        · exact ih m2 hrec x hx hvx

/-- C1: for every list of vulnerable versions and list of resolved versions
of one package (versions of one ecosystem, hence linearly ordered),
`nearest_patched_package` returns exactly one output pair per vulnerable
entry (the first components of the output are exactly the input, in order);
the patched entry paired with a vulnerable version `v` is the minimal
resolved entry strictly greater than `v`; it is `none` exactly when no
resolved entry exceeds `v`, in particular whenever the resolved list is
empty. -/
theorem nearest_patched_pairs_spec {α : Type} [LinearOrder α]
    (Vs Rs : List α) (v m : α) (hv : v ∈ Vs) :
    (nearest_patched_package linLt Vs Rs).map Prod.fst = Vs ∧
    (v, minGreaterBy linLt Rs v) ∈ nearest_patched_package linLt Vs Rs ∧
    (minGreaterBy linLt Rs v = some m →
      m ∈ Rs ∧ v < m ∧ ∀ r ∈ Rs, v < r → m ≤ r) ∧
    (minGreaterBy linLt Rs v = none ↔ ∀ r ∈ Rs, ¬ v < r) ∧
    (Rs = [] → minGreaterBy linLt Rs v = none) := by
  refine ⟨?_, ?_, ?_, ?_, ?_⟩
  · simp only [nearest_patched_package, List.map_map]
    exact List.map_congr_left (fun x _ => rfl) |>.trans (List.map_id Vs)
  · exact List.mem_map.mpr ⟨v, hv, rfl⟩
  · intro h
    rcases minGreaterBy_some_mem Rs v m h with ⟨h1, h2⟩
    exact ⟨h1, h2, minGreaterBy_minimal Rs v m h⟩
  · exact minGreaterBy_none_iff Rs v
  · intro h
    subst h
    rfl

/-- Witness for `nearest_patched_pairs_spec` at the concrete input
`vulnerable = [1, 3]`, `resolved = [2]`. -/
theorem nearest_patched_pairs_spec_witness :
    (nearest_patched_package linLt [1, 3] [2]).map Prod.fst = ([1, 3] : List ℕ) ∧
    ((1 : ℕ), minGreaterBy linLt [2] 1) ∈ nearest_patched_package linLt [1, 3] [2] ∧
    (minGreaterBy linLt [2] (1 : ℕ) = some 2 →
      2 ∈ [2] ∧ (1 : ℕ) < 2 ∧ ∀ r ∈ [2], (1 : ℕ) < r → 2 ≤ r) ∧
    (minGreaterBy linLt [2] (1 : ℕ) = none ↔ ∀ r ∈ [2], ¬ (1 : ℕ) < r) ∧
    (([2] : List ℕ) = [] → minGreaterBy linLt [2] (1 : ℕ) = none) :=
  nearest_patched_pairs_spec [1, 3] [2] 1 2 (by decide)

/-- C9 counterexample: `get_purl` is not total.  On a slug whose first
non-empty segment is not a known gitlab scheme it raises `KeyError` from the
`PURL_TYPE_BY_GITLAB_SCHEME` lookup, and on a slug with no non-empty segment
it raises `IndexError` from `parts[0]`; neither is caught in
`parse_yaml_file`. -/
theorem get_purl_raises_counterexample :
    get_purl (V := Nat) "cargo/flask" = Except.error "KeyError" ∧
    get_purl (V := Nat) "///" = Except.error "IndexError" := ⟨rfl, rfl⟩

/-- C9 amended: `get_purl` returns normally (a purl or `None`) exactly on the
slugs whose first non-empty segment is a known gitlab scheme; on every other
slug it raises (`KeyError` on an unknown first segment, `IndexError` when
there is no non-empty segment) and `parse_yaml_file` does not catch the
exception. -/
theorem get_purl_totality_characterization {V : Type} (slug : String) :
    (∃ result, get_purl (V := V) slug = Except.ok result) ↔
      (∃ scheme rest,
        (pySplitChar '/' slug.toList).filter not_empty = scheme :: rest ∧
        (purlTypeByGitlabScheme (String.mk scheme)).isSome) := by
  constructor
  · rintro ⟨r, hr⟩
    unfold get_purl at hr
    simp only [] at hr
    split at hr
    · exact Except.noConfusion hr
    · rename_i scheme rest heq
      refine ⟨scheme, rest, heq, ?_⟩
      split at hr
      · exact Except.noConfusion hr
      · rename_i t ht
        rw [ht]
        rfl
  · rintro ⟨scheme, rest, hcons, hsome⟩
    obtain ⟨t, ht⟩ := Option.isSome_iff_exists.mp hsome
    unfold get_purl
    simp only []
    rw [hcons]
    split
    · rename_i heq
      cases heq
    · rename_i s2 r2 heq
      injection heq with h1 h2
      subst h1
      subst h2
      rw [ht]
      split
      · rename_i heq2
        cases heq2
      · rename_i pt heq2
        injection heq2 with h3
        subst h3
        by_cases hgo : String.mk scheme = "go"
        · rw [if_pos hgo]
          exact ⟨_, rfl⟩
        · rw [if_neg hgo]
          match rest with
          | [] => exact ⟨none, rfl⟩
          | [n] => exact ⟨_, rfl⟩
          | n1 :: n2 :: more => exact ⟨_, rfl⟩

/-- Example range parser that accepts every expression, returning the range
of versions below 2. -/
def fgnEx : String → String → Except String (VersionRange Nat) :=
  fun _ _ => Except.ok (fun v => decide (v < 2))

/-- Example native range parser that accepts every expression. -/
def fnEx : String → Except String (VersionRange Nat) :=
  fun _ => Except.ok (fun _ => true)

/-- Example range parser that raises on every expression. -/
def fgnFail : String → String → Except String (VersionRange Nat) :=
  fun _ _ => Except.error "range parse error"

/-- Example native range parser that raises on every expression. -/
def fnFail : String → Except String (VersionRange Nat) :=
  fun _ => Except.error "range parse error"

/-- Example version parser understanding the version strings 1 and 2. -/
def vcEx : String → Except String Nat :=
  fun s =>
    if s = "1" then Except.ok 1
    else if s = "2" then Except.ok 2
    else Except.error "invalid version"

/-- Example gitlab advisory with both a parseable affected range and a
parseable fixed version. -/
def advC7 : GitlabAdvisory :=
  { identifiers := ["GMS-2018-26"], title := "t", description := "d",
    pubdate := "2018-03-15", affected_range := some "<2",
    fixed_versions := ["2"], urls := ["u"], package_slug := "pypi/flask" }

/-- C7 counterexample: on an advisory carrying both an `affected_range` and a
`fixed_versions` list, the gitlab importer produces an `AffectedPackage` with
BOTH `affected_version_range` and `fixed_version` populated
(`extract_affected_packages` passes both through), contradicting the claim
that exactly one of the two fields is ever populated. -/
theorem gitlab_both_fields_populated_counterexample :
    (match parse_yaml_file fgnEx fnEx vcEx advC7 with
     | Except.ok (some ad) => ad.affected_packages.any
         (fun ap => ap.affected_version_range.isSome && ap.fixed_version.isSome)
     | _ => false) = true := rfl

theorem build_affected_packages_field {V : Type} {purl : PackageURL V}
    {avr : Option (VersionRange V)} {pfv : List V} {ap : AffectedPackage V}
    (hap : ap ∈ build_affected_packages purl avr pfv) :
    ap.affected_version_range.isSome ∨ ap.fixed_version.isSome := by
  unfold build_affected_packages at hap
  split at hap
  · rcases List.mem_map.mp hap with ⟨fv, _, hfv⟩
    subst hfv
    right
    rfl
  · split at hap
    · exact absurd hap (List.not_mem_nil ap)
    · rename_i hnone
      rcases List.mem_cons.mp hap with heq | hm
      · subst heq
        left
        simp only [Option.isNone_iff_eq_none] at hnone
        exact Option.isSome_iff_ne_none.mpr hnone
      · exact absurd hm (List.not_mem_nil ap)

/-- C7 amended: every `AffectedPackage` record the gitlab importer produces
has at least one of its two payload fields populated: a `fixed_version`
(possibly together with an `affected_version_range`, when the advisory also
carried a parseable range), or an `affected_version_range` alone; never
neither. -/
theorem gitlab_affected_package_at_least_one_field {V : Type}
    (fgn : String → String → Except String (VersionRange V))
    (fn : String → Except String (VersionRange V))
    (vc : String → Except String V)
    (adv : GitlabAdvisory) (ad : AdvisoryData V) (ap : AffectedPackage V)
    (had : parse_yaml_file fgn fn vc adv = Except.ok (some ad))
    (hap : ap ∈ ad.affected_packages) :
    ap.affected_version_range.isSome ∨ ap.fixed_version.isSome := by
  unfold parse_yaml_file at had
  simp only [] at had
  split at had
  · exact Except.noConfusion had
  · injection had with had2
    injection had2 with had3
    subst had3
    simp only [List.not_mem_nil] at hap
  · split at had
    · exact Except.noConfusion had
    · injection had with had2
      injection had2 with had3
      subst had3
      exact build_affected_packages_field hap

/-- Example gitlab advisory with no affected range and one parseable fixed
version. -/
def advC7W : GitlabAdvisory :=
  { identifiers := ["GMS-1"], title := "t", description := "d",
    pubdate := "2020-01-01", affected_range := none,
    fixed_versions := ["1"], urls := ["u"], package_slug := "pypi/flask" }

/-- The purl of the example advisories. -/
def purlFlask : PackageURL Nat := { ptype := "pypi", name := "flask" }

/-- The affected package the importer produces for `advC7W`. -/
def apC7 : AffectedPackage Nat :=
  { package := purlFlask, affected_version_range := none, fixed_version := some 1 }

/-- The advisory data the importer produces for `advC7W`. -/
def adC7 : AdvisoryData Nat :=
  { aliases := ["GMS-1"], summary := "t. d", references := [⟨"u"⟩],
    date_published := some "2020-01-01", affected_packages := [apC7] }

/-- Witness for `gitlab_affected_package_at_least_one_field` at the concrete
advisory `advC7W`. -/
theorem gitlab_affected_package_at_least_one_field_witness :
    apC7.affected_version_range.isSome ∨ apC7.fixed_version.isSome :=
  gitlab_affected_package_at_least_one_field fgnEx fnEx vcEx advC7W adC7 apC7
    rfl (List.mem_cons_self apC7 [])

theorem build_affected_packages_none {V : Type} (purl : PackageURL V)
    (pfv : List V) :
    build_affected_packages purl none pfv =
      pfv.map (fun fixed_version =>
        { package := purl, affected_version_range := none,
          fixed_version := some fixed_version }) := by
  unfold build_affected_packages
  cases pfv with
  | nil => rfl
  | cons a l => rfl

/-- C4: when the range parser raises on an advisory's `affected_range`
expression, `parse_yaml_file` does not propagate the exception: it still
returns an `AdvisoryData` whose `affected_version_range` is treated as
absent, with affected packages built from whatever fixed versions parse (an
empty list when none do). -/
theorem gitlab_range_parse_failure_nonfatal {V : Type}
    (fgn : String → String → Except String (VersionRange V))
    (fn : String → Except String (VersionRange V))
    (vc : String → Except String V)
    (adv : GitlabAdvisory) (purl : PackageURL V) (gls ar msg : String)
    (hpurl : get_purl (V := V) adv.package_slug = Except.ok (some purl))
    (hgls : gitlabSchemeByPurlType purl.ptype = some gls)
    (har : adv.affected_range = some ar)
    (herr : (if gls ∈ gitlabNativeSchemes then fgn gls ar else fn ar) =
      Except.error msg) :
    parse_yaml_file fgn fn vc adv = Except.ok (some
      { aliases := adv.identifiers,
        summary := adv.title ++ ". " ++ adv.description,
        references := adv.urls.map Reference.from_url,
        date_published := some adv.pubdate,
        affected_packages :=
          (adv.fixed_versions.filterMap
            (fun fixed_version => (vc fixed_version).toOption)).map
            (fun fixed_version =>
              { package := purl, affected_version_range := none,
                fixed_version := some fixed_version }) }) := by
  by_cases hnat : gls ∈ gitlabNativeSchemes
  · rw [if_pos hnat] at herr
    simp only [parse_yaml_file, hpurl, hgls, har, if_pos hnat, herr,
      Except.toOption, build_affected_packages_none]
  · rw [if_neg hnat] at herr
    simp only [parse_yaml_file, hpurl, hgls, har, if_neg hnat, herr,
      Except.toOption, build_affected_packages_none]

/-- Witness for `gitlab_range_parse_failure_nonfatal` at the concrete
advisory `advC7` with parsers that raise on every range expression. -/
theorem gitlab_range_parse_failure_nonfatal_witness :
    parse_yaml_file fgnFail fnFail vcEx advC7 = Except.ok (some
      { aliases := ["GMS-2018-26"], summary := "t. d",
        references := [⟨"u"⟩], date_published := some "2018-03-15",
        affected_packages :=
          [{ package := purlFlask, affected_version_range := none,
             fixed_version := some 2 }] }) :=
  gitlab_range_parse_failure_nonfatal fgnFail fnFail vcEx advC7 purlFlask
    "pypi" "<2" "range parse error" rfl rfl rfl rfl

/-- Example purl comparison for the postgresql rows, ordering the version
strings lexicographically by character code. -/
def pgLtEx (a b : PackageURL String) : Bool :=
  match a.version, b.version with
  | some x, some y => decide (x < y)
  | none, some _ => true
  | _, none => false

theorem toAdvisoriesGo_all_none (lt : PackageURL String → PackageURL String → Bool)
    (rows : List PGRow) (c : String) (acc : List PGAdvisory)
    (h : ∀ r ∈ rows, r.ref_nobr = none) :
    toAdvisoriesGo lt rows (some c) acc =
      Except.ok (acc.reverse ++ rows.map (pg_advisory lt c)) := by
  induction rows generalizing acc with
  | nil => simp [toAdvisoriesGo]
  | cons row rest ih =>
    have hrow : row.ref_nobr = none := h row (List.mem_cons_self row rest)
    have hrest : ∀ r ∈ rest, r.ref_nobr = none :=
      fun r hr => h r (List.mem_cons_of_mem row hr)
    simp only [toAdvisoriesGo, hrow]
    rw [ih (pg_advisory lt c row :: acc) hrest]
    simp

/-- C10: in `to_advisories` of postgresql.py, a table row whose reference
column has no nobr element inherits the `cve_id` of the most recent
preceding row that had one (the advisory built for it carries that id); and
when the first row already lacks the nobr element, so that no preceding row
ever bound `cve_id`, `to_advisories` raises an unbound-local `NameError`
instead of returning advisories. -/
theorem postgresql_cve_id_fallthrough
    (lt : PackageURL String → PackageURL String → Bool)
    (rSome rNone : PGRow) (mid rest : List PGRow) (c : String)
    (h1 : rSome.ref_nobr = some c)
    (h2 : ∀ m ∈ mid, m.ref_nobr = none)
    (h3 : rNone.ref_nobr = none) :
    (to_advisories lt (rSome :: (mid ++ [rNone])) = Except.ok
        (pg_advisory lt c rSome ::
          (mid.map (pg_advisory lt c) ++ [pg_advisory lt c rNone])) ∧
      (pg_advisory lt c rNone).vulnerability_id = c) ∧
    to_advisories lt (rNone :: rest) = Except.error "NameError" := by
  refine ⟨⟨?_, rfl⟩, ?_⟩
  · have hall : ∀ r ∈ mid ++ [rNone], r.ref_nobr = none := by
      intro r hr
      rcases List.mem_append.mp hr with hr | hr
      · exact h2 r hr
      · rcases List.mem_cons.mp hr with hr | hr
        · subst hr; exact h3
        · exact absurd hr (List.not_mem_nil r)
    simp only [to_advisories, toAdvisoriesGo, h1]
    rw [toAdvisoriesGo_all_none lt (mid ++ [rNone]) c [pg_advisory lt c rSome] hall]
    simp
  · simp only [to_advisories, toAdvisoriesGo, h3]

/-- A row whose reference column carries the nobr text CVE-1. -/
def rowWithCve : PGRow := { ref_nobr := some "CVE-1", desc_text := "first" }

/-- A row whose reference column has no nobr element. -/
def rowNoCve : PGRow := { desc_text := "second" }

/-- Witness for `postgresql_cve_id_fallthrough` at two concrete rows. -/
theorem postgresql_cve_id_fallthrough_witness :
    (to_advisories pgLtEx (rowWithCve :: ([] ++ [rowNoCve])) = Except.ok
        (pg_advisory pgLtEx "CVE-1" rowWithCve ::
          (List.map (pg_advisory pgLtEx "CVE-1") [] ++
            [pg_advisory pgLtEx "CVE-1" rowNoCve])) ∧
      (pg_advisory pgLtEx "CVE-1" rowNoCve).vulnerability_id = "CVE-1") ∧
    to_advisories pgLtEx (rowNoCve :: []) = Except.error "NameError" :=
  postgresql_cve_id_fallthrough pgLtEx rowWithCve rowNoCve [] [] "CVE-1"
    rfl (fun m hm => absurd hm (List.not_mem_nil m)) rfl

theorem flatMap_nil_of_all_nil {α β : Type} (f : α → List β) (l : List α)
    (h : ∀ a, f a = []) : l.flatMap f = [] := by
  induction l with
  | nil => rfl
  | cons a t ih => simp [List.flatMap_cons, h a, ih]

/-- C5: an empty version universe resolves to two empty sets, and on any
advisory whose universe lookup returns the empty list,
`GitLabBasicImprover.get_inferences` yields no inference at all (rather than
raising, or defaulting to all-affected or all-fixed). -/
theorem gitlab_empty_universe_no_inferences {V : Type} [LinearOrder V]
    [DecidableEq V] (r : VersionRange V) (st : ImproverState V)
    (advisory_data : AdvisoryData V) :
    resolve_version_range r ([] : List V) = ([], []) ∧
    (getInferencesState (fun _ _ => []) st advisory_data).1 = [] := by
  refine ⟨rfl, ?_⟩
  by_cases hemp : advisory_data.affected_packages.isEmpty
  · simp only [getInferencesState, if_pos hemp]
  · cases hmerge : AffectedPackage.merge advisory_data.affected_packages with
    | error e => simp only [getInferencesState, if_neg hemp, hmerge]
    | ok res =>
      obtain ⟨purl, rs, fv⟩ := res
      simp only [getInferencesState, if_neg hemp, hmerge]
      exact flatMap_nil_of_all_nil _ rs (fun avr => rfl)

/-- C6: every inference yielded by `GitLabBasicImprover.get_inferences` has
confidence exactly 100. -/
theorem gitlab_confidence_always_100 {V : Type} [LinearOrder V] [DecidableEq V]
    (get_package_versions : PackageURL V → Option String → List V)
    (st : ImproverState V) (advisory_data : AdvisoryData V) (inf : Inference V)
    (hinf : inf ∈ (getInferencesState get_package_versions st advisory_data).1) :
    inf.confidence = 100 := by
  by_cases hemp : advisory_data.affected_packages.isEmpty
  · simp only [getInferencesState, if_pos hemp] at hinf
    exact absurd hinf (List.not_mem_nil inf)
  · cases hmerge : AffectedPackage.merge advisory_data.affected_packages with
    | error e =>
      simp only [getInferencesState, if_neg hemp, hmerge] at hinf
      exact absurd hinf (List.not_mem_nil inf)
    | ok res =>
      obtain ⟨purl, rs, fv⟩ := res
      simp only [getInferencesState, if_neg hemp, hmerge,
        inferencesForPackage] at hinf
      rcases List.mem_flatMap.mp hinf with ⟨avr, _, hmem⟩
      rcases List.mem_map.mp hmem with ⟨g, _, hg⟩
      subst hg
      rfl

theorem merge_error_of_distinct {V : Type} (aps : List (AffectedPackage V))
    (a b : AffectedPackage V) (ha : a ∈ aps) (hb : b ∈ aps)
    (hne : identityOf a.package ≠ identityOf b.package) :
    AffectedPackage.merge aps = Except.error () := by
  cases aps with
  | nil => rfl
  | cons x rest =>
    by_cases hall :
        rest.all (fun p => decide (identityOf p.package = identityOf x.package))
    · exfalso
      have hidx : ∀ p ∈ x :: rest,
          identityOf p.package = identityOf x.package := by
        intro p hp
        rcases List.mem_cons.mp hp with hp | hp
        · subst hp; rfl
        · simpa using List.all_eq_true.mp hall p hp
      exact hne ((hidx a ha).trans (hidx b hb).symm)
    · simp only [AffectedPackage.merge]
      rw [if_neg hall]

/-- C3: an advisory whose affected packages mix two distinct
`(type, namespace, name)` identities makes `AffectedPackage.merge` raise
`UnMergeablePackageError`; `GitLabBasicImprover.get_inferences` catches it
and yields zero inferences instead of propagating the error. -/
theorem gitlab_unmergeable_advisory_skipped {V : Type} [LinearOrder V]
    [DecidableEq V]
    (get_package_versions : PackageURL V → Option String → List V)
    (st : ImproverState V) (advisory_data : AdvisoryData V)
    (a b : AffectedPackage V)
    (ha : a ∈ advisory_data.affected_packages)
    (hb : b ∈ advisory_data.affected_packages)
    (hne : identityOf a.package ≠ identityOf b.package) :
    (getInferencesState get_package_versions st advisory_data).1 = [] := by
  have hmerge := merge_error_of_distinct advisory_data.affected_packages a b ha hb hne
  by_cases hemp : advisory_data.affected_packages.isEmpty
  · simp only [getInferencesState, if_pos hemp]
  · simp only [getInferencesState, if_neg hemp, hmerge]

theorem lookupFetcher_append_self {V : Type} [DecidableEq V]
    (st : ImproverState V) (purl : PackageURL V) (f : GoproxyFetcher)
    (h : lookupFetcher st purl = none) :
    lookupFetcher (st ++ [(purl, f)]) purl = some f := by
  induction st with
  | nil => simp [lookupFetcher]
  | cons kv rest ih =>
    obtain ⟨k, g⟩ := kv
    by_cases hk : k = purl
    · simp only [lookupFetcher, if_pos hk] at h
      cases h
    · simp only [lookupFetcher, if_neg hk] at h ⊢
      exact ih h

theorem golangNameState_name_stable {V : Type} [DecidableEq V]
    (st : ImproverState V) (purl : PackageURL V) :
    (golangNameState (golangNameState st purl).2 purl).1 =
      (golangNameState st purl).1 := by
  by_cases hgo : purl.ptype = "golang"
  · cases hl : lookupFetcher st purl with
    | some f => simp only [golangNameState, if_pos hgo, hl]
    | none =>
      simp only [golangNameState, if_pos hgo, hl,
        lookupFetcher_append_self st purl ({} : GoproxyFetcher) hl]
  · simp only [golangNameState, if_neg hgo]

/-- C8: with the version-universe lookup fixed (the same
`get_package_versions` result), running `GitLabBasicImprover.get_inferences`
twice on the same advisory yields the same list of inferences; the only
mutable state the improver touches, its `versions_fetcher_by_purl` dict, does
not change the output between runs. -/
theorem gitlab_inferences_idempotent {V : Type} [LinearOrder V] [DecidableEq V]
    (get_package_versions : PackageURL V → Option String → List V)
    (st : ImproverState V) (advisory_data : AdvisoryData V) :
    (getInferencesState get_package_versions
        (getInferencesState get_package_versions st advisory_data).2
        advisory_data).1 =
      (getInferencesState get_package_versions st advisory_data).1 := by
  by_cases hemp : advisory_data.affected_packages.isEmpty
  · simp only [getInferencesState, if_pos hemp]
  · cases hmerge : AffectedPackage.merge advisory_data.affected_packages with
    | error e => simp only [getInferencesState, if_neg hemp, hmerge]
    | ok res =>
      obtain ⟨purl, rs, fv⟩ := res
      simp only [getInferencesState, if_neg hemp, hmerge]
      rw [golangNameState_name_stable st purl]

/-- Example universe lookup returning versions 1 and 2. -/
def gvEx : PackageURL Nat → Option String → List Nat := fun _ _ => [1, 2]

/-- Example advisory whose single affected package carries the range of
versions below 2. -/
def advI : AdvisoryData Nat :=
  { aliases := ["GMS-X"], summary := "s", references := [],
    date_published := some "2020-01-01",
    affected_packages := [{ package := purlFlask,
                            affected_version_range :=
                              some (fun v => decide (v < 2)) }] }

/-- The single inference the improver yields for `advI` under `gvEx`. -/
def infC6 : Inference Nat :=
  { aliases := ["GMS-X"], summary := "s", confidence := 100,
    affected_purls := [{ ptype := "pypi", name := "flask", version := some 1 }],
    fixed_purl := some { ptype := "pypi", name := "flask", version := some 2 },
    references := [] }

/-- Witness for `gitlab_confidence_always_100` at the concrete advisory
`advI`. -/
theorem gitlab_confidence_always_100_witness : infC6.confidence = 100 :=
  gitlab_confidence_always_100 gvEx [] advI infC6
    (by rw [show (getInferencesState gvEx [] advI).1 = [infC6] from rfl]
        exact List.mem_cons_self infC6 [])

/-- An affected package of package foo. -/
def apFoo : AffectedPackage Nat := { package := { ptype := "pypi", name := "foo" } }

/-- An affected package of package bar. -/
def apBar : AffectedPackage Nat := { package := { ptype := "pypi", name := "bar" } }

/-- Example advisory mixing the identities foo and bar. -/
def advC3 : AdvisoryData Nat :=
  { aliases := ["GMS-Y"], summary := "s2", affected_packages := [apFoo, apBar] }

/-- Witness for `gitlab_unmergeable_advisory_skipped` at the concrete
advisory `advC3` mixing packages foo and bar. -/
theorem gitlab_unmergeable_advisory_skipped_witness :
    (getInferencesState gvEx [] advC3).1 = [] :=
  gitlab_unmergeable_advisory_skipped gvEx [] advC3 apFoo apBar
    (List.mem_cons_self apFoo [apBar])
    (List.mem_cons_of_mem apFoo (List.mem_cons_self apBar []))
    (by decide)

/-- Lookup of a key's list in the grouping dict. -/
def lookupGroup {α κ : Type} [DecidableEq κ] :
    List (κ × List α) → κ → Option (List α)
  | [], _ => none
  | (k2, vs) :: rest, k => if k2 = k then some vs else lookupGroup rest k

theorem lookupGroup_insert_self {α κ : Type} [DecidableEq κ]
    (acc : List (κ × List α)) (k : κ) (v : α) :
    lookupGroup (insertGrouped k v acc) k =
      some ((lookupGroup acc k).getD [] ++ [v]) := by
  induction acc with
  | nil => simp [insertGrouped, lookupGroup]
  | cons g rest ih =>
    obtain ⟨k2, vs⟩ := g
    by_cases hk : k2 = k
    · subst hk
      simp [insertGrouped, lookupGroup]
    · simp [insertGrouped, lookupGroup, hk, ih]

theorem lookupGroup_insert_other {α κ : Type} [DecidableEq κ]
    (acc : List (κ × List α)) (k k2 : κ) (v : α) (hne : k2 ≠ k) :
    lookupGroup (insertGrouped k v acc) k2 = lookupGroup acc k2 := by
  induction acc with
  | nil =>
    have hne2 : k ≠ k2 := fun h => hne h.symm
    simp [insertGrouped, lookupGroup, hne2]
  | cons g rest ih =>
    obtain ⟨k3, vs⟩ := g
    by_cases hk : k3 = k
    · subst hk
      have hne3 : k3 ≠ k2 := fun h => hne h.symm
      simp [insertGrouped, lookupGroup, hne3]
    · by_cases hk2 : k3 = k2
      · subst hk2
        simp [insertGrouped, lookupGroup, hk]
      · simp [insertGrouped, lookupGroup, hk, hk2, ih]

theorem insertGrouped_keys_mem {α κ : Type} [DecidableEq κ]
    (acc : List (κ × List α)) (k : κ) (v : α) (h : k ∈ acc.map Prod.fst) :
    (insertGrouped k v acc).map Prod.fst = acc.map Prod.fst := by
  induction acc with
  | nil => exact absurd h (List.not_mem_nil k)
  | cons g rest ih =>
    obtain ⟨k2, vs⟩ := g
    by_cases hk : k2 = k
    · simp [insertGrouped, hk]
    · have h2 : k ∈ rest.map Prod.fst := by
        rcases List.mem_cons.mp h with he | hm
        · exact absurd he.symm hk
        · exact hm
      simp [insertGrouped, hk, ih h2]

theorem insertGrouped_keys_new {α κ : Type} [DecidableEq κ]
    (acc : List (κ × List α)) (k : κ) (v : α) (h : k ∉ acc.map Prod.fst) :
    (insertGrouped k v acc).map Prod.fst = acc.map Prod.fst ++ [k] := by
  induction acc with
  | nil => simp [insertGrouped]
  | cons g rest ih =>
    obtain ⟨k2, vs⟩ := g
    have hk : k2 ≠ k := by
      intro he
      exact h (by simp [he])
    have h2 : k ∉ rest.map Prod.fst := fun hm => h (by simp [hm])
    simp [insertGrouped, hk, ih h2]

theorem insertGrouped_keys_nodup {α κ : Type} [DecidableEq κ]
    (acc : List (κ × List α)) (k : κ) (v : α)
    (h : (acc.map Prod.fst).Nodup) :
    ((insertGrouped k v acc).map Prod.fst).Nodup := by
  by_cases hk : k ∈ acc.map Prod.fst
  · rw [insertGrouped_keys_mem acc k v hk]
    exact h
  · rw [insertGrouped_keys_new acc k v hk]
    refine List.Nodup.append h (List.nodup_singleton k) ?_
    intro x hx hxk
    rw [List.mem_singleton] at hxk
    subst hxk
    exact hk hx

theorem lookupGroup_eq_none_iff {α κ : Type} [DecidableEq κ]
    (groups : List (κ × List α)) (k : κ) :
    lookupGroup groups k = none ↔ k ∉ groups.map Prod.fst := by
  induction groups with
  | nil => simp [lookupGroup]
  | cons g rest ih =>
    obtain ⟨k2, vs⟩ := g
    by_cases hk : k2 = k
    · subst hk
      simp [lookupGroup]
    · have hk2 : ¬ k = k2 := fun h => hk h.symm
      simp [lookupGroup, hk, hk2, ih]

theorem groupByPatched_append_single {α κ : Type} [DecidableEq κ]
    (pairs : List (α × κ)) (p : α × κ) :
    groupByPatched (pairs ++ [p]) =
      insertGrouped p.2 p.1 (groupByPatched pairs) := by
  simp [groupByPatched, List.foldl_append]

theorem lookupGroup_groupByPatched {α κ : Type} [DecidableEq κ]
    (pairs : List (α × κ)) (k : κ) :
    lookupGroup (groupByPatched pairs) k =
      if k ∈ pairs.map Prod.snd then
        some ((pairs.filter (fun q => decide (q.2 = k))).map Prod.fst)
      else none := by
  induction pairs using List.reverseRecOn with
  | nil => simp [groupByPatched, lookupGroup]
  | append_singleton pairs p ih =>
    rw [groupByPatched_append_single]
    by_cases hk : p.2 = k
    · subst hk
      rw [lookupGroup_insert_self, ih]
      by_cases hmem : p.2 ∈ pairs.map Prod.snd
      · rw [if_pos hmem, if_pos (by simp [hmem])]
        simp [List.filter_append]
      · rw [if_neg hmem, if_pos (by simp)]
        have hnil : pairs.filter (fun q => decide (q.2 = p.2)) = [] := by
          rw [List.filter_eq_nil_iff]
          intro q hq
          simp only [decide_eq_true_eq]
          intro he
          exact hmem (he ▸ List.mem_map_of_mem Prod.snd hq)
        simp [List.filter_append, hnil]
    · rw [lookupGroup_insert_other (groupByPatched pairs) p.2 k p.1
        (fun h => hk h.symm), ih]
      have hkp : ¬ k = p.2 := fun h => hk h.symm
      by_cases hmem : k ∈ pairs.map Prod.snd
      · rw [if_pos hmem, if_pos (by simp [hmem])]
        have hp : pairs.filter (fun q => decide (q.2 = k)) ++
            List.filter (fun q => decide (q.2 = k)) [p] =
              pairs.filter (fun q => decide (q.2 = k)) := by
          simp [List.filter_cons, hk]
        rw [List.filter_append, hp]
      · rw [if_neg hmem, if_neg (by simp [hkp, hmem])]

theorem mem_iff_lookupGroup {α κ : Type} [DecidableEq κ]
    {groups : List (κ × List α)} (hnd : (groups.map Prod.fst).Nodup)
    (k : κ) (vs : List α) :
    (k, vs) ∈ groups ↔ lookupGroup groups k = some vs := by
  induction groups with
  | nil => simp [lookupGroup]
  | cons g rest ih =>
    obtain ⟨k2, vs2⟩ := g
    rw [List.map_cons, List.nodup_cons] at hnd
    obtain ⟨hk2notin, hnd2⟩ := hnd
    by_cases hk : k2 = k
    · subst hk
      have hlook : lookupGroup ((k2, vs2) :: rest) k2 = some vs2 := by
        simp [lookupGroup]
      rw [hlook]
      constructor
      · intro hm
        rcases List.mem_cons.mp hm with he | hm2
        · injection he with h1 h2
          rw [h2]
        · exact absurd (List.mem_map_of_mem Prod.fst hm2) hk2notin
      · intro hl
        injection hl with h
        subst h
        exact List.mem_cons_self _ _
    · simp only [lookupGroup, if_neg hk, List.mem_cons]
      constructor
      · intro hm
        rcases hm with he | hm2
        · exfalso
          injection he with h1 h2
          exact hk h1.symm
        · exact (ih hnd2).mp hm2
      · intro hl
        exact Or.inr ((ih hnd2).mpr hl)

theorem insertGrouped_join_perm {α κ : Type} [DecidableEq κ]
    (acc : List (κ × List α)) (k : κ) (v : α) :
    ((insertGrouped k v acc).flatMap Prod.snd).Perm
      (v :: acc.flatMap Prod.snd) := by
  induction acc with
  | nil => simp [insertGrouped]
  | cons g rest ih =>
    obtain ⟨k2, vs⟩ := g
    by_cases hk : k2 = k
    · simp only [insertGrouped, if_pos hk, List.flatMap_cons]
      have h1 : (vs ++ [v]) ++ rest.flatMap Prod.snd =
          vs ++ (v :: rest.flatMap Prod.snd) := by simp
      rw [h1]
      exact List.perm_middle
    · simp only [insertGrouped, if_neg hk, List.flatMap_cons]
      refine List.Perm.trans (List.Perm.append_left vs ih) ?_
      exact List.perm_middle

theorem groupByPatched_join_perm {α κ : Type} [DecidableEq κ]
    (pairs : List (α × κ)) :
    ((groupByPatched pairs).flatMap Prod.snd).Perm (pairs.map Prod.fst) := by
  induction pairs using List.reverseRecOn with
  | nil => simp [groupByPatched]
  | append_singleton pairs p ih =>
    rw [groupByPatched_append_single]
    refine List.Perm.trans (insertGrouped_join_perm _ _ _) ?_
    refine List.Perm.trans (ih.cons p.1) ?_
    have hmapp : (pairs ++ [p]).map Prod.fst = pairs.map Prod.fst ++ [p.1] := by
      simp
    rw [hmapp]
    exact (List.perm_append_singleton p.1 (pairs.map Prod.fst)).symm

theorem groupByPatched_keys_nodup {α κ : Type} [DecidableEq κ]
    (pairs : List (α × κ)) :
    ((groupByPatched pairs).map Prod.fst).Nodup := by
  induction pairs using List.reverseRecOn with
  | nil => simp [groupByPatched]
  | append_singleton pairs p ih =>
    rw [groupByPatched_append_single]
    exact insertGrouped_keys_nodup _ _ _ ih

theorem groupByPatched_keys {α κ : Type} [DecidableEq κ]
    (pairs : List (α × κ)) (k : κ) :
    k ∈ (groupByPatched pairs).map Prod.fst ↔ k ∈ pairs.map Prod.snd := by
  rw [← not_iff_not, ← lookupGroup_eq_none_iff, lookupGroup_groupByPatched]
  by_cases h : k ∈ pairs.map Prod.snd
  · simp [h]
  · simp [h]

theorem filter_key_length_one {α κ : Type} [DecidableEq κ]
    (groups : List (κ × List α)) (k : κ)
    (hnd : (groups.map Prod.fst).Nodup) (hmem : k ∈ groups.map Prod.fst) :
    (groups.filter (fun g => decide (g.1 = k))).length = 1 := by
  induction groups with
  | nil => exact absurd hmem (List.not_mem_nil k)
  | cons g rest ih =>
    obtain ⟨k2, vs⟩ := g
    rw [List.map_cons, List.nodup_cons] at hnd
    obtain ⟨hk2notin, hnd2⟩ := hnd
    by_cases hk : k2 = k
    · subst hk
      have hrest : rest.filter (fun q => decide (q.1 = k2)) = [] := by
        rw [List.filter_eq_nil_iff]
        intro q hq
        simp only [decide_eq_true_eq]
        intro he
        exact hk2notin (List.mem_map.mpr ⟨q, hq, he⟩)
      simp [List.filter_cons, hrest]
    · have hmem2 : k ∈ rest.map Prod.fst := by
        rcases List.mem_cons.mp hmem with he | hm
        · exact absurd he.symm hk
        · exact hm
      simp [List.filter_cons, hk, ih hnd2 hmem2]

/-- C2: in `GitLabBasicImprover.get_inferences`, the matcher's output pairs
are grouped by their patched package (with the absent patched package a valid
key); exactly one inference is yielded per distinct patched-package key (the
yielded `fixed_purl` values are distinct and every pair's patched package
appears among them), each inference's `affected_purls` is the full list of
vulnerable purls mapped to its key, and, when the vulnerable purls are
distinct, every vulnerable purl appears in exactly one yielded inference. -/
theorem gitlab_grouped_inferences_spec {V : Type} [DecidableEq V]
    (advisory_data : AdvisoryData V)
    (pairs : List (PackageURL V × Option (PackageURL V)))
    (p : PackageURL V × Option (PackageURL V))
    (hnd : (pairs.map Prod.fst).Nodup) (hp : p ∈ pairs) :
    ((inferencesFromPairs advisory_data pairs).map
        (fun inf => inf.fixed_purl)).Nodup ∧
    p.2 ∈ (inferencesFromPairs advisory_data pairs).map
        (fun inf => inf.fixed_purl) ∧
    (∀ inf ∈ inferencesFromPairs advisory_data pairs,
      inf.affected_purls =
        (pairs.filter (fun q => decide (q.2 = inf.fixed_purl))).map Prod.fst) ∧
    ((inferencesFromPairs advisory_data pairs).flatMap
        (fun inf => inf.affected_purls)).Perm (pairs.map Prod.fst) ∧
    ((inferencesFromPairs advisory_data pairs).filter
        (fun inf => decide (p.1 ∈ inf.affected_purls))).length = 1 := by
  have hmapfix : (inferencesFromPairs advisory_data pairs).map
      (fun inf => inf.fixed_purl) = (groupByPatched pairs).map Prod.fst := by
    simp only [inferencesFromPairs, List.map_map]
    rfl
  have hsnd : p.2 ∈ pairs.map Prod.snd := List.mem_map.mpr ⟨p, hp, rfl⟩
  have hcontent : ∀ g ∈ groupByPatched pairs,
      g.2 = (pairs.filter (fun q => decide (q.2 = g.1))).map Prod.fst ∧
        g.1 ∈ pairs.map Prod.snd := by
    intro g hg
    have hg2 : (g.1, g.2) ∈ groupByPatched pairs := hg
    have hl := (mem_iff_lookupGroup (groupByPatched_keys_nodup pairs)
      g.1 g.2).mp hg2
    rw [lookupGroup_groupByPatched] at hl
    by_cases hmem : g.1 ∈ pairs.map Prod.snd
    · rw [if_pos hmem] at hl
      injection hl with h
      exact ⟨h.symm, hmem⟩
    · rw [if_neg hmem] at hl
      cases hl
  refine ⟨?_, ?_, ?_, ?_, ?_⟩
  · rw [hmapfix]
    exact groupByPatched_keys_nodup pairs
  · rw [hmapfix]
    exact (groupByPatched_keys pairs p.2).mpr hsnd
  · intro inf hinf
    rcases List.mem_map.mp hinf with ⟨g, hg, hge⟩
    subst hge
    exact (hcontent g hg).1
  · have hjoin : (inferencesFromPairs advisory_data pairs).flatMap
        (fun inf => inf.affected_purls) =
          (groupByPatched pairs).flatMap Prod.snd := by
      simp only [inferencesFromPairs, List.flatMap_map]
    rw [hjoin]
    exact groupByPatched_join_perm pairs
  · have hcong : ∀ g ∈ groupByPatched pairs,
        decide (p.1 ∈ g.2) = decide (g.1 = p.2) := by
      intro g hg
      rcases hcontent g hg with ⟨hval, hkey⟩
      rw [decide_eq_decide]
      constructor
      · intro hmem
        rw [hval] at hmem
        rcases List.mem_map.mp hmem with ⟨q, hq, hqe⟩
        have hqp : q = p :=
          List.inj_on_of_nodup_map hnd (List.mem_filter.mp hq).1 hp hqe
        have hq2 : q.2 = g.1 := by
          have hf := (List.mem_filter.mp hq).2
          simpa using hf
        rw [← hqp, hq2]
      · intro hkeq
        rw [hval, hkeq]
        exact List.mem_map.mpr ⟨p, List.mem_filter.mpr ⟨hp, by simp⟩, rfl⟩
    have hfm : (inferencesFromPairs advisory_data pairs).filter
        (fun inf => decide (p.1 ∈ inf.affected_purls)) =
          ((groupByPatched pairs).filter
            (fun g => decide (g.1 = p.2))).map
            (fun g => ({ aliases := advisory_data.aliases,
                         summary := advisory_data.summary, confidence := 100,
                         affected_purls := g.2, fixed_purl := g.1,
                         references := advisory_data.references } :
              Inference V)) := by
      rw [inferencesFromPairs, List.filter_map]
      rw [List.filter_congr ?hcg]
      case hcg =>
        intro g hg
        exact hcong g hg
    rw [hfm, List.length_map]
    exact filter_key_length_one (groupByPatched pairs) p.2
      (groupByPatched_keys_nodup pairs)
      ((groupByPatched_keys pairs p.2).mpr hsnd)

/-- A concrete vulnerable purl at version 2 with no known fix. -/
def p200 : PackageURL Nat := { ptype := "pypi", name := "flask", version := some 2 }

/-- The matcher output of the scenario vulnerable 2, resolved empty. -/
def pairsC2 : List (PackageURL Nat × Option (PackageURL Nat)) := [(p200, none)]

/-- Witness for `gitlab_grouped_inferences_spec` at the scenario of one
vulnerable version and no resolved version: one inference keyed by the
absent fix. -/
theorem gitlab_grouped_inferences_spec_witness :
    ((inferencesFromPairs advI pairsC2).map (fun inf => inf.fixed_purl)).Nodup ∧
    (none : Option (PackageURL Nat)) ∈
      (inferencesFromPairs advI pairsC2).map (fun inf => inf.fixed_purl) ∧
    (∀ inf ∈ inferencesFromPairs advI pairsC2,
      inf.affected_purls =
        (pairsC2.filter (fun q => decide (q.2 = inf.fixed_purl))).map Prod.fst) ∧
    ((inferencesFromPairs advI pairsC2).flatMap
        (fun inf => inf.affected_purls)).Perm (pairsC2.map Prod.fst) ∧
    ((inferencesFromPairs advI pairsC2).filter
        (fun inf => decide (p200 ∈ inf.affected_purls))).length = 1 :=
  gitlab_grouped_inferences_spec advI pairsC2 (p200, none) (by decide)
    (List.mem_cons_self _ _)

end VulnCode
